import Mathlib

/-!
Verification of the numerical-decision-threshold-analysis library.

The embedding models the three Python modules:
- `ndt/thresholds.py` : `apply_threshold`
- `ndt/metrics.py`    : `_to_list_int`, `confusion_counts`, `safe_div`,
                        `metrics_from_counts`, `binary_metrics`
- `src/ndt/core.py`   : `analyze_threshold`, `sweep_thresholds`

Python scores/floats are modelled by exact rationals (the code performs
only comparisons and divisions of small integer counts, no float-specific
behaviour is relied upon by the contracts), Python ints by `Int`, and
runtime-typed sequence elements by `PyVal`.  Python exceptions become the
`NdtError` sum type carried in `Except`.
-/

namespace NDT

/-- A Python runtime value appearing in a label sequence: the code only
distinguishes `isinstance(v, int)` from everything else; floats are carried
as exact rationals. -/
inductive PyVal where
  | int (v : ℤ)
  | float (q : ℚ)
  | str (s : String)
deriving DecidableEq, Repr

/-- Python `isinstance(v, int)` for a `PyVal`. -/
def is_int : PyVal → Bool
  | .int _ => true
  | _ => false

/-- A value is representable as an integer: an int, or a float with zero
fractional part (such as `2.0`).  Used only to state claims about coercion. -/
def int_representable : PyVal → Bool
  | .int _ => true
  | .float q => q.den == 1
  | _ => false

/-- The error kinds raised by the library (spec section 7):
TypeKind (a non-int element, with sequence name and index), LengthMismatch
(the two lengths), LabelDomainError (sequence name, index, offending value). -/
inductive NdtError where
  | typeKind (name : String) (index : ℕ)
  | lengthMismatch (lenTrue lenPred : ℕ)
  | labelDomain (name : String) (index : ℕ) (value : ℤ)
deriving DecidableEq, Repr

/-- Helper for `_to_list_int`: walk the list keeping the running index `i`,
failing at the first element that is not a Python int. -/
def toListIntAux (name : String) : ℕ → List PyVal → Except NdtError (List ℤ)
  | _, [] => .ok []
  | i, v :: rest =>
    match v with
    | .int n => (toListIntAux name (i + 1) rest).map (fun l => n :: l)
    | _ => .error (.typeKind name i)

/-- `_to_list_int` of `metrics.py`: materialize the sequence and reject any
element `v` with `not isinstance(v, int)`, reporting the sequence name and
the index of the first offender. -/
def _to_list_int (values : List PyVal) (name : String) : Except NdtError (List ℤ) :=
  toListIntAux name 0 values

/-- The immutable `ConfusionCounts` dataclass of `metrics.py`.  The code only
ever produces non-negative counts, so the fields are naturals. -/
structure ConfusionCounts where
  tp : ℕ
  fp : ℕ
  tn : ℕ
  fn : ℕ
deriving DecidableEq, Repr

/-- One iteration of the counting loop body of `confusion_counts` (after the
strict-label check): set `t_pos`/`p_pos` by equality with `positive_label`
and bump exactly one of the four counters. -/
def countPair (positive_label : ℤ) (c : ConfusionCounts) (t p : ℤ) : ConfusionCounts :=
  let t_pos := decide (t = positive_label)
  let p_pos := decide (p = positive_label)
  if t_pos && p_pos then { c with tp := c.tp + 1 }
  else if !t_pos && p_pos then { c with fp := c.fp + 1 }
  else if !t_pos && !p_pos then { c with tn := c.tn + 1 }
  else { c with fn := c.fn + 1 }

/-- The `for i, (t, p) in enumerate(zip(yt, yp))` loop of `confusion_counts`:
under `strict_labels` reject (at the current index `i`) a `t` and then a `p`
outside `{positive_label, negative_label}`, otherwise accumulate via
`countPair`. -/
def countLoop (positive_label negative_label : ℤ) (strict_labels : Bool) :
    ℕ → List (ℤ × ℤ) → ConfusionCounts → Except NdtError ConfusionCounts
  | _, [], c => .ok c
  | i, (t, p) :: rest, c =>
    if strict_labels ∧ t ≠ positive_label ∧ t ≠ negative_label then
      .error (.labelDomain "y_true" i t)
    else if strict_labels ∧ p ≠ positive_label ∧ p ≠ negative_label then
      .error (.labelDomain "y_pred" i p)
    else
      countLoop positive_label negative_label strict_labels (i + 1) rest
        (countPair positive_label c t p)

/-- `confusion_counts` of `metrics.py`: coerce both inputs with
`_to_list_int`, reject a length mismatch, then run the counting loop from
index 0 with all four counters at 0. -/
def confusion_counts (y_true y_pred : List PyVal) (positive_label negative_label : ℤ)
    (strict_labels : Bool) : Except NdtError ConfusionCounts :=
  match _to_list_int y_true "y_true" with
  | .error e => .error e
  | .ok yt =>
    match _to_list_int y_pred "y_pred" with
    | .error e => .error e
    | .ok yp =>
      if yt.length ≠ yp.length then
        .error (.lengthMismatch yt.length yp.length)
      else
        countLoop positive_label negative_label strict_labels 0 (yt.zip yp) ⟨0, 0, 0, 0⟩

/-- `safe_div` of `metrics.py`: `n / d`, or `0.0` if `d == 0`. -/
def safe_div (n d : ℚ) : ℚ := if d = 0 then 0 else n / d

/-- The dict returned by `metrics_from_counts`: the embedded counts plus the
seven named ratios. -/
structure MetricsReport where
  counts : ConfusionCounts
  accuracy : ℚ
  precision : ℚ
  «recall» : ℚ
  specificity : ℚ
  f1 : ℚ
  fpr : ℚ
  fnr : ℚ
deriving DecidableEq, Repr

/-- `metrics_from_counts` of `metrics.py`, transcribed line by line with
`safe_div` guarding every ratio. -/
def metrics_from_counts (c : ConfusionCounts) : MetricsReport :=
  let tp : ℚ := c.tp
  let fp : ℚ := c.fp
  let tn : ℚ := c.tn
  let fn : ℚ := c.fn
  let total := tp + fp + tn + fn
  let accuracy := safe_div (tp + tn) total
  let precision := safe_div tp (tp + fp)
  let «recall» := safe_div tp (tp + fn)
  let specificity := safe_div tn (tn + fp)
  let f1 := safe_div (2 * precision * «recall») (precision + «recall»)
  let fpr := safe_div fp (fp + tn)
  let fnr := safe_div fn (fn + tp)
  { counts := c, accuracy := accuracy, precision := precision, «recall» := «recall»,
    specificity := specificity, f1 := f1, fpr := fpr, fnr := fnr }

/-- `binary_metrics` of `metrics.py`: `confusion_counts` then
`metrics_from_counts`. -/
def binary_metrics (y_true y_pred : List PyVal) (positive_label negative_label : ℤ)
    (strict_labels : Bool) : Except NdtError MetricsReport :=
  match confusion_counts y_true y_pred positive_label negative_label strict_labels with
  | .error e => .error e
  | .ok c => .ok (metrics_from_counts c)

/-- `apply_threshold` of `thresholds.py`: each score maps to
`positive_label` when `score >= threshold`, else `negative_label`. -/
def apply_threshold (scores : List ℚ) (threshold : ℚ)
    (positive_label negative_label : ℤ) : List ℤ :=
  scores.map (fun score => if score ≥ threshold then positive_label else negative_label)

/-- The immutable `ThresholdAnalysisResult` dataclass of `core.py`. -/
structure ThresholdAnalysisResult where
  threshold : ℚ
  y_pred : List ℤ
  counts : ConfusionCounts
  metrics : MetricsReport
deriving DecidableEq, Repr

/-- Lift a list of Python ints (such as `apply_threshold`'s output) back to
runtime values for the `Iterable[int]` parameters of `metrics.py`. -/
def intsAsPy (l : List ℤ) : List PyVal := l.map PyVal.int

/-- `analyze_threshold` of `core.py`: apply the threshold, compute counts,
compute the metrics report (via `binary_metrics`, which recomputes the
counts), and bundle the four fields. -/
def analyze_threshold (scores : List ℚ) (y_true : List PyVal) (threshold : ℚ)
    (positive_label negative_label : ℤ) (strict_labels : Bool) :
    Except NdtError ThresholdAnalysisResult :=
  let y_pred := apply_threshold scores threshold positive_label negative_label
  match confusion_counts y_true (intsAsPy y_pred)
      positive_label negative_label strict_labels with
  | .error e => .error e
  | .ok counts =>
    match binary_metrics y_true (intsAsPy y_pred)
        positive_label negative_label strict_labels with
    | .error e => .error e
    | .ok metrics =>
      .ok { threshold := threshold, y_pred := y_pred, counts := counts, metrics := metrics }

/-- `sweep_thresholds` of `core.py`: call `analyze_threshold` once per
threshold, in the order supplied, appending results; any failure aborts the
whole sweep. -/
def sweep_thresholds (scores : List ℚ) (y_true : List PyVal) (thresholds : List ℚ)
    (positive_label negative_label : ℤ) (strict_labels : Bool) :
    Except NdtError (List ThresholdAnalysisResult) :=
  match thresholds with
  | [] => .ok []
  | th :: rest =>
    match analyze_threshold scores y_true th positive_label negative_label strict_labels with
    | .error e => .error e
    | .ok r =>
      match sweep_thresholds scores y_true rest positive_label negative_label strict_labels with
      | .error e => .error e
      | .ok rs => .ok (r :: rs)

/-! ### Projection lemmas for `metrics_from_counts` (shared helpers) -/

theorem metrics_counts_eq (c : ConfusionCounts) : (metrics_from_counts c).counts = c := rfl

theorem metrics_accuracy (c : ConfusionCounts) :
    (metrics_from_counts c).accuracy =
      safe_div ((c.tp : ℚ) + c.tn) ((c.tp : ℚ) + c.fp + c.tn + c.fn) := rfl

theorem metrics_precision (c : ConfusionCounts) :
    (metrics_from_counts c).precision = safe_div (c.tp : ℚ) ((c.tp : ℚ) + c.fp) := rfl

theorem metrics_recall (c : ConfusionCounts) :
    (metrics_from_counts c).«recall» = safe_div (c.tp : ℚ) ((c.tp : ℚ) + c.fn) := rfl

theorem metrics_specificity (c : ConfusionCounts) :
    (metrics_from_counts c).specificity = safe_div (c.tn : ℚ) ((c.tn : ℚ) + c.fp) := rfl

theorem metrics_f1 (c : ConfusionCounts) :
    (metrics_from_counts c).f1 =
      safe_div (2 * (metrics_from_counts c).precision * (metrics_from_counts c).«recall»)
        ((metrics_from_counts c).precision + (metrics_from_counts c).«recall») := rfl

theorem metrics_fpr (c : ConfusionCounts) :
    (metrics_from_counts c).fpr = safe_div (c.fp : ℚ) ((c.fp : ℚ) + c.tn) := rfl

theorem metrics_fnr (c : ConfusionCounts) :
    (metrics_from_counts c).fnr = safe_div (c.fn : ℚ) ((c.fn : ℚ) + c.tp) := rfl

theorem safe_div_nonneg {n d : ℚ} (hn : 0 ≤ n) (hd : 0 ≤ d) : 0 ≤ safe_div n d := by
  unfold safe_div
  split_ifs
  · exact le_refl 0
  · exact div_nonneg hn hd

theorem safe_div_le_one {n d : ℚ} (hn : 0 ≤ n) (hnd : n ≤ d) : safe_div n d ≤ 1 := by
  unfold safe_div
  split_ifs with h
  · norm_num
  · exact (div_le_one (lt_of_le_of_ne (hn.trans hnd) (Ne.symm h))).mpr hnd

/-! ### Helper lemmas on list indexing -/

theorem get?_of_mem {α : Type} {v : α} : ∀ {l : List α}, v ∈ l → ∃ k, l.get? k = some v
  | a :: l, h => by
    rcases List.mem_cons.mp h with h | h
    · exact ⟨0, by simp [h]⟩
    · rcases get?_of_mem h with ⟨k, hk⟩
      exact ⟨k + 1, by simpa using hk⟩

theorem mem_of_get? {α : Type} {v : α} : ∀ {l : List α} {k : ℕ}, l.get? k = some v → v ∈ l
  | a :: l, 0, h => by
    simp only [List.get?_cons_zero, Option.some.injEq] at h
    simp [h]
  | a :: l, k + 1, h => by
    simp only [List.get?_cons_succ] at h
    exact List.mem_cons_of_mem a (mem_of_get? h)

theorem get?_lt_length {α : Type} : ∀ {l : List α} {k : ℕ} {v : α},
    l.get? k = some v → k < l.length
  | a :: l, 0, v, _ => Nat.succ_pos _
  | a :: l, k + 1, v, h => by
    simp only [List.get?_cons_succ] at h
    exact Nat.succ_lt_succ (get?_lt_length h)
  | [], k, v, h => by cases h

theorem get?_of_lt {α : Type} : ∀ (l : List α) (k : ℕ), k < l.length → ∃ v, l.get? k = some v
  | a :: l, 0, _ => ⟨a, rfl⟩
  | a :: l, k + 1, h => by simpa using get?_of_lt l k (by simpa using h)
  | [], k, h => absurd h (by simp)

/-! ### Helper lemmas on `_to_list_int` -/

theorem toListIntAux_map_int (name : String) : ∀ (l : List ℤ) (i : ℕ),
    toListIntAux name i (intsAsPy l) = .ok l
  | [], _ => rfl
  | n :: rest, i => by
    have ih := toListIntAux_map_int name rest (i + 1)
    simp only [intsAsPy, List.map] at ih ⊢
    simp only [toListIntAux, ih, Except.map]

theorem to_list_int_map_int (name : String) (l : List ℤ) :
    _to_list_int (intsAsPy l) name = .ok l :=
  toListIntAux_map_int name l 0

theorem toListIntAux_ok_shape (name : String) : ∀ (vs : List PyVal) (i : ℕ) (l : List ℤ),
    toListIntAux name i vs = .ok l → vs = intsAsPy l
  | [], _, l, h => by
    cases h
    rfl
  | v :: rest, i, l, h => by
    match v with
    | .int n =>
      simp only [toListIntAux] at h
      cases hrec : toListIntAux name (i + 1) rest with
      | error e => rw [hrec] at h; cases h
      | ok l' =>
        rw [hrec] at h
        cases h
        simp [intsAsPy, toListIntAux_ok_shape name rest (i + 1) l' hrec]
    | .float q => cases h
    | .str t => cases h

theorem toListIntAux_ok_of_all (name : String) : ∀ (vs : List PyVal) (i : ℕ),
    (∀ v ∈ vs, is_int v = true) → ∃ l, toListIntAux name i vs = .ok l
  | [], _, _ => ⟨[], rfl⟩
  | v :: rest, i, h => by
    match v with
    | .int n =>
      rcases toListIntAux_ok_of_all name rest (i + 1)
        (fun w hw => h w (List.mem_cons_of_mem _ hw)) with ⟨l, hl⟩
      exact ⟨n :: l, by simp only [toListIntAux, hl, Except.map]⟩
    | .float q =>
      exact absurd (h (PyVal.float q) (List.mem_cons_self _ _)) (by simp [is_int])
    | .str t =>
      exact absurd (h (PyVal.str t) (List.mem_cons_self _ _)) (by simp [is_int])

theorem toListIntAux_first_bad (name : String) : ∀ (vs : List PyVal) (i0 k : ℕ) (v : PyVal),
    vs.get? k = some v → is_int v = false →
    (∀ j w, j < k → vs.get? j = some w → is_int w = true) →
    toListIntAux name i0 vs = .error (.typeKind name (i0 + k))
  | [], _, k, v, hget, _, _ => by cases hget
  | w :: rest, i0, 0, v, hget, hbad, _ => by
    have hw : w = v := by simpa using hget
    subst hw
    cases w with
    | int n => simp [is_int] at hbad
    | float q => simp [toListIntAux]
    | str t => simp [toListIntAux]
  | w :: rest, i0, k + 1, v, hget, hbad, hbefore => by
    have hw : is_int w = true := hbefore 0 w (Nat.succ_pos k) rfl
    cases w with
    | float q => simp [is_int] at hw
    | str t => simp [is_int] at hw
    | int n =>
      simp only [List.get?_cons_succ] at hget
      have ih := toListIntAux_first_bad name rest (i0 + 1) k v hget hbad
        (fun j u hj hu => hbefore (j + 1) u (Nat.succ_lt_succ hj) (by simpa using hu))
      simp only [toListIntAux, ih, Except.map]
      have harith : i0 + 1 + k = i0 + (k + 1) := by omega
      rw [harith]

/-! ### Helper lemmas on the counting loop -/

theorem countPair_sum (pos : ℤ) (c : ConfusionCounts) (t p : ℤ) :
    (countPair pos c t p).tp + (countPair pos c t p).fp +
      (countPair pos c t p).tn + (countPair pos c t p).fn =
    c.tp + c.fp + c.tn + c.fn + 1 := by
  simp only [countPair]
  split_ifs <;> simp <;> omega

theorem countLoop_sum (pos neg : ℤ) (strict : Bool) : ∀ (pairs : List (ℤ × ℤ)) (i : ℕ)
    (c c' : ConfusionCounts), countLoop pos neg strict i pairs c = .ok c' →
    c'.tp + c'.fp + c'.tn + c'.fn = c.tp + c.fp + c.tn + c.fn + pairs.length
  | [], i, c, c', h => by
    cases h
    simp
  | (t, p) :: rest, i, c, c', h => by
    unfold countLoop at h
    by_cases h1 : strict = true ∧ t ≠ pos ∧ t ≠ neg
    · rw [if_pos h1] at h
      cases h
    · rw [if_neg h1] at h
      by_cases h2 : strict = true ∧ p ≠ pos ∧ p ≠ neg
      · rw [if_pos h2] at h
        cases h
      · rw [if_neg h2] at h
        have hrec := countLoop_sum pos neg strict rest (i + 1) (countPair pos c t p) c' h
        have hps := countPair_sum pos c t p
        simp only [List.length_cons]
        omega

theorem countLoop_no_length_error (pos neg : ℤ) (strict : Bool) :
    ∀ (pairs : List (ℤ × ℤ)) (i : ℕ) (c : ConfusionCounts) (a b : ℕ),
      countLoop pos neg strict i pairs c ≠ .error (.lengthMismatch a b)
  | [], i, c, a, b, h => by cases h
  | (t, p) :: rest, i, c, a, b, h => by
    unfold countLoop at h
    by_cases h1 : strict = true ∧ t ≠ pos ∧ t ≠ neg
    · rw [if_pos h1] at h
      cases h
    · rw [if_neg h1] at h
      by_cases h2 : strict = true ∧ p ≠ pos ∧ p ≠ neg
      · rw [if_pos h2] at h
        cases h
      · rw [if_neg h2] at h
        exact countLoop_no_length_error pos neg strict rest (i + 1) (countPair pos c t p) a b h

theorem countLoop_strict_ok (pos neg : ℤ) : ∀ (pairs : List (ℤ × ℤ)) (i : ℕ)
    (c : ConfusionCounts),
    (∀ q ∈ pairs, (q.1 = pos ∨ q.1 = neg) ∧ (q.2 = pos ∨ q.2 = neg)) →
    ∃ c', countLoop pos neg true i pairs c = .ok c'
  | [], _, c, _ => ⟨c, rfl⟩
  | (t, p) :: rest, i, c, h => by
    have hhead := h (t, p) (List.mem_cons_self _ _)
    rcases countLoop_strict_ok pos neg rest (i + 1) (countPair pos c t p)
      (fun q hq => h q (List.mem_cons_of_mem _ hq)) with ⟨c', hc'⟩
    refine ⟨c', ?_⟩
    unfold countLoop
    rw [if_neg (by tauto), if_neg (by tauto)]
    exact hc'

theorem countLoop_strict_error (pos neg : ℤ) : ∀ (pairs : List (ℤ × ℤ)) (i0 : ℕ)
    (c : ConfusionCounts),
    (∃ q ∈ pairs, (q.1 ≠ pos ∧ q.1 ≠ neg) ∨ (q.2 ≠ pos ∧ q.2 ≠ neg)) →
    ∃ j v name, countLoop pos neg true i0 pairs c = .error (.labelDomain name (i0 + j) v) ∧
      (v ≠ pos ∧ v ≠ neg) ∧
      ((name = "y_true" ∧ ∃ p2, pairs.get? j = some (v, p2)) ∨
       (name = "y_pred" ∧ ∃ t2, pairs.get? j = some (t2, v)))
  | [], _, _, h => by
    rcases h with ⟨q, hq, _⟩
    cases hq
  | (t, p) :: rest, i0, c, h => by
    by_cases ht : t ≠ pos ∧ t ≠ neg
    · refine ⟨0, t, "y_true", ?_, ht, Or.inl ⟨rfl, p, rfl⟩⟩
      unfold countLoop
      rw [if_pos (by tauto)]
      norm_num
    · by_cases hp : p ≠ pos ∧ p ≠ neg
      · refine ⟨0, p, "y_pred", ?_, hp, Or.inr ⟨rfl, t, rfl⟩⟩
        unfold countLoop
        rw [if_neg (by tauto), if_pos (by tauto)]
        norm_num
      · have htail : ∃ q ∈ rest, (q.1 ≠ pos ∧ q.1 ≠ neg) ∨ (q.2 ≠ pos ∧ q.2 ≠ neg) := by
          rcases h with ⟨q, hq, hbad⟩
          rcases List.mem_cons.mp hq with rfl | hq'
          · exact absurd hbad (by tauto)
          · exact ⟨q, hq', hbad⟩
        rcases countLoop_strict_error pos neg rest (i0 + 1) (countPair pos c t p) htail with
          ⟨j, v, name, heq, hbad, hloc⟩
        refine ⟨j + 1, v, name, ?_, hbad, ?_⟩
        · unfold countLoop
          rw [if_neg (by tauto), if_neg (by tauto), heq]
          have harith : i0 + 1 + j = i0 + (j + 1) := by omega
          rw [harith]
        · rcases hloc with ⟨hn, p2, hg⟩ | ⟨hn, t2, hg⟩
          · exact Or.inl ⟨hn, p2, by simpa using hg⟩
          · exact Or.inr ⟨hn, t2, by simpa using hg⟩

theorem countLoop_false_ok (pos neg : ℤ) : ∀ (pairs : List (ℤ × ℤ)) (i : ℕ)
    (c : ConfusionCounts),
    countLoop pos neg false i pairs c = .ok
      ⟨c.tp + pairs.countP (fun q => decide (q.1 = pos) && decide (q.2 = pos)),
       c.fp + pairs.countP (fun q => !decide (q.1 = pos) && decide (q.2 = pos)),
       c.tn + pairs.countP (fun q => !decide (q.1 = pos) && !decide (q.2 = pos)),
       c.fn + pairs.countP (fun q => decide (q.1 = pos) && !decide (q.2 = pos))⟩
  | [], i, c => by simp [countLoop]
  | (t, p) :: rest, i, c => by
    have ih := countLoop_false_ok pos neg rest (i + 1) (countPair pos c t p)
    unfold countLoop
    rw [if_neg (by simp), if_neg (by simp), ih]
    by_cases ht : t = pos <;> by_cases hp : p = pos <;>
      simp [countPair, ht, hp, List.countP_cons] <;> omega

/-! ### `confusion_counts` on validated integer inputs -/

theorem confusion_counts_int (yt yp : List ℤ) (pos neg : ℤ) (strict : Bool) :
    confusion_counts (intsAsPy yt) (intsAsPy yp) pos neg strict =
      if yt.length ≠ yp.length then .error (.lengthMismatch yt.length yp.length)
      else countLoop pos neg strict 0 (yt.zip yp) ⟨0, 0, 0, 0⟩ := by
  unfold confusion_counts _to_list_int
  rw [toListIntAux_map_int, toListIntAux_map_int]

theorem intsAsPy_length (l : List ℤ) : (intsAsPy l).length = l.length :=
  List.length_map _ _

/-! ### Claim theorems -/

/-- Claim C1: `apply_threshold` returns a sequence of the same length and
order as the input, whose element `i` is `positive_label` exactly when
`scores[i] >= threshold` and `negative_label` otherwise; a score equal to the
threshold maps to the positive label, every output element is one of the two
labels, and the empty input yields the empty output. -/
theorem apply_threshold_spec (scores : List ℚ) (t : ℚ) (pos neg : ℤ) :
    (apply_threshold scores t pos neg).length = scores.length ∧
    (∀ i : ℕ, (apply_threshold scores t pos neg).get? i =
      (scores.get? i).map (fun s => if s ≥ t then pos else neg)) ∧
    (∀ x ∈ apply_threshold scores t pos neg, x = pos ∨ x = neg) ∧
    apply_threshold [] t pos neg = [] ∧
    apply_threshold [t] t pos neg = [pos] := by
  refine ⟨List.length_map _ _, fun i => ?_, fun x hx => ?_, rfl, ?_⟩
  · simp [apply_threshold]
  · rcases List.mem_map.mp hx with ⟨s, _, rfl⟩
    by_cases h : s ≥ t
    · exact Or.inl (if_pos h)
    · exact Or.inr (if_neg h)
  · simp [apply_threshold]

/-- Witness for C1: on scores `[3]` with threshold `2`, the element `1` of the
output is one of the two labels. -/
theorem apply_threshold_spec_witness : (1 : ℤ) = 1 ∨ (1 : ℤ) = 0 :=
  (apply_threshold_spec [(3 : ℚ)] 2 1 0).2.2.1 1 (by norm_num [apply_threshold])

/-- Claim C2: `metrics_from_counts` computes exactly the reference formulas
accuracy = (tp+tn)/total, precision = tp/(tp+fp), recall = tp/(tp+fn),
specificity = tn/(tn+fp), f1 = 2*precision*recall/(precision+recall),
fpr = fp/(fp+tn), fnr = fn/(fn+tp), each division returning 0 when its
denominator is zero (including f1 when precision+recall is zero). -/
theorem metrics_from_counts_formulas (c : ConfusionCounts) :
    (metrics_from_counts c).counts = c
    ∧ (c.tp + c.fp + c.tn + c.fn ≠ 0 →
        (metrics_from_counts c).accuracy =
          ((c.tp : ℚ) + c.tn) / ((c.tp : ℚ) + c.fp + c.tn + c.fn))
    ∧ (c.tp + c.fp + c.tn + c.fn = 0 → (metrics_from_counts c).accuracy = 0)
    ∧ (c.tp + c.fp ≠ 0 → (metrics_from_counts c).precision = (c.tp : ℚ) / ((c.tp : ℚ) + c.fp))
    ∧ (c.tp + c.fp = 0 → (metrics_from_counts c).precision = 0)
    ∧ (c.tp + c.fn ≠ 0 → (metrics_from_counts c).«recall» = (c.tp : ℚ) / ((c.tp : ℚ) + c.fn))
    ∧ (c.tp + c.fn = 0 → (metrics_from_counts c).«recall» = 0)
    ∧ (c.tn + c.fp ≠ 0 →
        (metrics_from_counts c).specificity = (c.tn : ℚ) / ((c.tn : ℚ) + c.fp))
    ∧ (c.tn + c.fp = 0 → (metrics_from_counts c).specificity = 0)
    ∧ ((metrics_from_counts c).precision + (metrics_from_counts c).«recall» ≠ 0 →
        (metrics_from_counts c).f1 =
          2 * (metrics_from_counts c).precision * (metrics_from_counts c).«recall» /
            ((metrics_from_counts c).precision + (metrics_from_counts c).«recall»))
    ∧ ((metrics_from_counts c).precision + (metrics_from_counts c).«recall» = 0 →
        (metrics_from_counts c).f1 = 0)
    ∧ (c.fp + c.tn ≠ 0 → (metrics_from_counts c).fpr = (c.fp : ℚ) / ((c.fp : ℚ) + c.tn))
    ∧ (c.fp + c.tn = 0 → (metrics_from_counts c).fpr = 0)
    ∧ (c.fn + c.tp ≠ 0 → (metrics_from_counts c).fnr = (c.fn : ℚ) / ((c.fn : ℚ) + c.tp))
    ∧ (c.fn + c.tp = 0 → (metrics_from_counts c).fnr = 0) := by
  refine ⟨rfl, fun h => ?_, fun h => ?_, fun h => ?_, fun h => ?_, fun h => ?_, fun h => ?_,
    fun h => ?_, fun h => ?_, fun h => ?_, fun h => ?_, fun h => ?_, fun h => ?_,
    fun h => ?_, fun h => ?_⟩
  · rw [metrics_accuracy, safe_div, if_neg (by exact_mod_cast h)]
  · rw [metrics_accuracy, safe_div, if_pos (by exact_mod_cast h)]
  · rw [metrics_precision, safe_div, if_neg (by exact_mod_cast h)]
  · rw [metrics_precision, safe_div, if_pos (by exact_mod_cast h)]
  · rw [metrics_recall, safe_div, if_neg (by exact_mod_cast h)]
  · rw [metrics_recall, safe_div, if_pos (by exact_mod_cast h)]
  · rw [metrics_specificity, safe_div, if_neg (by exact_mod_cast h)]
  · rw [metrics_specificity, safe_div, if_pos (by exact_mod_cast h)]
  · rw [metrics_f1, safe_div, if_neg h]
  · rw [metrics_f1, safe_div, if_pos h]
  · rw [metrics_fpr, safe_div, if_neg (by exact_mod_cast h)]
  · rw [metrics_fpr, safe_div, if_pos (by exact_mod_cast h)]
  · rw [metrics_fnr, safe_div, if_neg (by exact_mod_cast h)]
  · rw [metrics_fnr, safe_div, if_pos (by exact_mod_cast h)]

/-- Witness for C2 at counts (1,1,1,1). -/
theorem metrics_from_counts_formulas_witness :
    (metrics_from_counts ⟨1, 1, 1, 1⟩).accuracy = ((1 : ℚ) + 1) / ((1 : ℚ) + 1 + 1 + 1) ∧
    (metrics_from_counts ⟨1, 1, 1, 1⟩).f1 =
      2 * (metrics_from_counts ⟨1, 1, 1, 1⟩).precision * (metrics_from_counts ⟨1, 1, 1, 1⟩).«recall» /
        ((metrics_from_counts ⟨1, 1, 1, 1⟩).precision + (metrics_from_counts ⟨1, 1, 1, 1⟩).«recall») :=
  ⟨(metrics_from_counts_formulas ⟨1, 1, 1, 1⟩).2.1 (by decide),
   (metrics_from_counts_formulas ⟨1, 1, 1, 1⟩).2.2.2.2.2.2.2.2.2.1
     (by norm_num [metrics_precision, metrics_recall, safe_div])⟩

/-- Claim C3: for every `ConfusionCounts` (all fields non-negative integers,
including all four zero) `metrics_from_counts` is total and every ratio it
returns lies in the closed interval [0, 1]; each ratio is 0 when its
denominator is zero (that case is settled by C2's theorem). -/
theorem metrics_from_counts_in_unit_interval (c : ConfusionCounts) :
    (0 ≤ (metrics_from_counts c).accuracy ∧ (metrics_from_counts c).accuracy ≤ 1) ∧
    (0 ≤ (metrics_from_counts c).precision ∧ (metrics_from_counts c).precision ≤ 1) ∧
    (0 ≤ (metrics_from_counts c).«recall» ∧ (metrics_from_counts c).«recall» ≤ 1) ∧
    (0 ≤ (metrics_from_counts c).specificity ∧ (metrics_from_counts c).specificity ≤ 1) ∧
    (0 ≤ (metrics_from_counts c).f1 ∧ (metrics_from_counts c).f1 ≤ 1) ∧
    (0 ≤ (metrics_from_counts c).fpr ∧ (metrics_from_counts c).fpr ≤ 1) ∧
    (0 ≤ (metrics_from_counts c).fnr ∧ (metrics_from_counts c).fnr ≤ 1) := by
  have tp0 : (0 : ℚ) ≤ c.tp := Nat.cast_nonneg _
  have fp0 : (0 : ℚ) ≤ c.fp := Nat.cast_nonneg _
  have tn0 : (0 : ℚ) ≤ c.tn := Nat.cast_nonneg _
  have fn0 : (0 : ℚ) ≤ c.fn := Nat.cast_nonneg _
  have hprec : 0 ≤ (metrics_from_counts c).precision ∧ (metrics_from_counts c).precision ≤ 1 := by
    rw [metrics_precision]
    exact ⟨safe_div_nonneg tp0 (by linarith), safe_div_le_one tp0 (by linarith)⟩
  have hrec : 0 ≤ (metrics_from_counts c).«recall» ∧ (metrics_from_counts c).«recall» ≤ 1 := by
    rw [metrics_recall]
    exact ⟨safe_div_nonneg tp0 (by linarith), safe_div_le_one tp0 (by linarith)⟩
  refine ⟨?_, hprec, hrec, ?_, ?_, ?_, ?_⟩
  · rw [metrics_accuracy]
    exact ⟨safe_div_nonneg (by linarith) (by linarith), safe_div_le_one (by linarith) (by linarith)⟩
  · rw [metrics_specificity]
    exact ⟨safe_div_nonneg tn0 (by linarith), safe_div_le_one tn0 (by linarith)⟩
  · rw [metrics_f1]
    obtain ⟨hp0, hp1⟩ := hprec
    obtain ⟨hr0, hr1⟩ := hrec
    constructor
    · exact safe_div_nonneg (by nlinarith) (by linarith)
    · refine safe_div_le_one (by nlinarith) ?_
      nlinarith [mul_nonneg hp0 (sub_nonneg.mpr hr1), mul_nonneg hr0 (sub_nonneg.mpr hp1)]
  · rw [metrics_fpr]
    exact ⟨safe_div_nonneg fp0 (by linarith), safe_div_le_one fp0 (by linarith)⟩
  · rw [metrics_fnr]
    exact ⟨safe_div_nonneg fn0 (by linarith), safe_div_le_one fn0 (by linarith)⟩

/-- Claim C10: recall and fnr are computed over the shared denominator tp+fn,
and specificity and fpr over tn+fp, so recall + fnr = 1 whenever tp+fn > 0
and specificity + fpr = 1 whenever tn+fp > 0, both summands being 0 when the
shared denominator is zero. -/
theorem recall_fnr_specificity_fpr_complements (c : ConfusionCounts) :
    (0 < c.tp + c.fn →
      (metrics_from_counts c).«recall» + (metrics_from_counts c).fnr = 1) ∧
    (c.tp + c.fn = 0 →
      (metrics_from_counts c).«recall» = 0 ∧ (metrics_from_counts c).fnr = 0) ∧
    (0 < c.tn + c.fp →
      (metrics_from_counts c).specificity + (metrics_from_counts c).fpr = 1) ∧
    (c.tn + c.fp = 0 →
      (metrics_from_counts c).specificity = 0 ∧ (metrics_from_counts c).fpr = 0) := by
  refine ⟨fun h => ?_, fun h => ?_, fun h => ?_, fun h => ?_⟩
  · have hd : ((c.tp : ℚ) + c.fn) ≠ 0 := by
      have := Nat.pos_iff_ne_zero.mp h
      exact_mod_cast this
    have hd' : ((c.fn : ℚ) + c.tp) ≠ 0 := by rwa [add_comm]
    rw [metrics_recall, metrics_fnr, safe_div, safe_div, if_neg hd, if_neg hd',
      add_comm (c.fn : ℚ) (c.tp : ℚ), div_add_div_same, div_self hd]
  · have h1 : c.tp = 0 := by omega
    have h2 : c.fn = 0 := by omega
    rw [metrics_recall, metrics_fnr, h1, h2]
    norm_num [safe_div]
  · have hd : ((c.tn : ℚ) + c.fp) ≠ 0 := by
      have := Nat.pos_iff_ne_zero.mp h
      exact_mod_cast this
    have hd' : ((c.fp : ℚ) + c.tn) ≠ 0 := by rwa [add_comm]
    rw [metrics_specificity, metrics_fpr, safe_div, safe_div, if_neg hd, if_neg hd',
      add_comm (c.fp : ℚ) (c.tn : ℚ), div_add_div_same, div_self hd]
  · have h1 : c.tn = 0 := by omega
    have h2 : c.fp = 0 := by omega
    rw [metrics_specificity, metrics_fpr, h1, h2]
    norm_num [safe_div]

/-- Witness for C10 at counts (tp,fp,tn,fn) = (1,0,0,1): tp+fn = 2 > 0 gives
recall + fnr = 1, and tn+fp = 0 gives specificity = fpr = 0. -/
theorem recall_fnr_specificity_fpr_complements_witness :
    ((metrics_from_counts ⟨1, 0, 0, 1⟩).«recall» + (metrics_from_counts ⟨1, 0, 0, 1⟩).fnr = 1) ∧
    ((metrics_from_counts ⟨1, 0, 0, 1⟩).specificity = 0 ∧
      (metrics_from_counts ⟨1, 0, 0, 1⟩).fpr = 0) :=
  ⟨(recall_fnr_specificity_fpr_complements ⟨1, 0, 0, 1⟩).1 (by decide),
   (recall_fnr_specificity_fpr_complements ⟨1, 0, 0, 1⟩).2.2.2 (by decide)⟩

/-- Claim C4: whenever `confusion_counts` succeeds, the four counters sum to
the length of `y_true`: each compared pair is classified into exactly one of
the four counters. -/
theorem confusion_counts_conservation (y_true y_pred : List PyVal) (pos neg : ℤ)
    (strict : Bool) (c : ConfusionCounts)
    (h : confusion_counts y_true y_pred pos neg strict = .ok c) :
    c.tp + c.fp + c.tn + c.fn = y_true.length := by
  unfold confusion_counts at h
  cases hyt : _to_list_int y_true "y_true" with
  | error e =>
    rw [hyt] at h
    cases h
  | ok yt =>
    rw [hyt] at h
    cases hyp : _to_list_int y_pred "y_pred" with
    | error e =>
      rw [hyp] at h
      cases h
    | ok yp =>
      rw [hyp] at h
      have h2 : (if yt.length ≠ yp.length then
          Except.error (NdtError.lengthMismatch yt.length yp.length)
        else countLoop pos neg strict 0 (yt.zip yp) ⟨0, 0, 0, 0⟩) = .ok c := h
      by_cases hlen : yt.length ≠ yp.length
      · rw [if_pos hlen] at h2
        cases h2
      · rw [if_neg hlen] at h2
        push_neg at hlen
        have hsum := countLoop_sum pos neg strict (yt.zip yp) 0 ⟨0, 0, 0, 0⟩ c h2
        have hshape := toListIntAux_ok_shape "y_true" y_true 0 yt hyt
        rw [List.length_zip, hlen, min_self] at hsum
        simp at hsum
        rw [hshape, intsAsPy_length, hlen]
        omega

/-- Witness for C4: counts for y_true=[1,0], y_pred=[1,1] are (1,1,0,0) and
sum to the input length 2. -/
theorem confusion_counts_conservation_witness :
    (1 : ℕ) + 1 + 0 + 0 = (intsAsPy [1, 0]).length :=
  confusion_counts_conservation (intsAsPy [1, 0]) (intsAsPy [1, 1]) 1 0 true
    ⟨1, 1, 0, 0⟩ rfl

/-- Claim C5: with `strict_labels` true and equal-length integer inputs,
`confusion_counts` fails with a LabelDomainError identifying the sequence,
index and offending value whenever some element of either sequence is neither
`positive_label` nor `negative_label`, and succeeds when every element is one
of the two labels. -/
theorem confusion_counts_strict_label_domain (yt yp : List ℤ) (pos neg : ℤ)
    (hlen : yt.length = yp.length) :
    (((∃ v ∈ yt, v ≠ pos ∧ v ≠ neg) ∨ (∃ v ∈ yp, v ≠ pos ∧ v ≠ neg)) →
      ∃ name i v, confusion_counts (intsAsPy yt) (intsAsPy yp) pos neg true =
          .error (.labelDomain name i v) ∧ (v ≠ pos ∧ v ≠ neg) ∧
          ((name = "y_true" ∧ yt.get? i = some v) ∨
           (name = "y_pred" ∧ yp.get? i = some v))) ∧
    ((∀ v ∈ yt, v = pos ∨ v = neg) → (∀ v ∈ yp, v = pos ∨ v = neg) →
      ∃ c, confusion_counts (intsAsPy yt) (intsAsPy yp) pos neg true = .ok c) := by
  have hcc := confusion_counts_int yt yp pos neg true
  rw [if_neg (by omega)] at hcc
  constructor
  · intro hbad
    have hzip : ∃ q ∈ yt.zip yp, (q.1 ≠ pos ∧ q.1 ≠ neg) ∨ (q.2 ≠ pos ∧ q.2 ≠ neg) := by
      rcases hbad with ⟨v, hv, hb⟩ | ⟨v, hv, hb⟩
      · rcases get?_of_mem hv with ⟨k, hk⟩
        rcases get?_of_lt yp k (by rw [← hlen]; exact get?_lt_length hk) with ⟨w, hw⟩
        refine ⟨(v, w), mem_of_get? ((List.get?_zip_eq_some yt yp (v, w) k).mpr ⟨hk, hw⟩),
          Or.inl hb⟩
      · rcases get?_of_mem hv with ⟨k, hk⟩
        rcases get?_of_lt yt k (by rw [hlen]; exact get?_lt_length hk) with ⟨w, hw⟩
        refine ⟨(w, v), mem_of_get? ((List.get?_zip_eq_some yt yp (w, v) k).mpr ⟨hw, hk⟩),
          Or.inr hb⟩
    rcases countLoop_strict_error pos neg (yt.zip yp) 0 ⟨0, 0, 0, 0⟩ hzip with
      ⟨j, v, name, heq, hb, hloc⟩
    refine ⟨name, j, v, ?_, hb, ?_⟩
    · rw [hcc, heq]
      norm_num
    · rcases hloc with ⟨hn, p2, hg⟩ | ⟨hn, t2, hg⟩
      · exact Or.inl ⟨hn, ((List.get?_zip_eq_some yt yp (v, p2) j).mp hg).1⟩
      · exact Or.inr ⟨hn, ((List.get?_zip_eq_some yt yp (t2, v) j).mp hg).2⟩
  · intro h1 h2
    have hall : ∀ q ∈ yt.zip yp, (q.1 = pos ∨ q.1 = neg) ∧ (q.2 = pos ∨ q.2 = neg) := by
      intro q hq
      rcases get?_of_mem hq with ⟨k, hk⟩
      have hcomp := (List.get?_zip_eq_some yt yp q k).mp hk
      exact ⟨h1 q.1 (mem_of_get? hcomp.1), h2 q.2 (mem_of_get? hcomp.2)⟩
    rcases countLoop_strict_ok pos neg (yt.zip yp) 0 ⟨0, 0, 0, 0⟩ hall with ⟨c, hc⟩
    exact ⟨c, by rw [hcc, hc]⟩

/-- Witness for C5: y_true=[2], y_pred=[1] under strict validation fails with
a LabelDomainError naming y_true, index 0, value 2. -/
theorem confusion_counts_strict_label_domain_witness :
    ∃ name i v, confusion_counts (intsAsPy [2]) (intsAsPy [1]) 1 0 true =
        .error (.labelDomain name i v) ∧ (v ≠ 1 ∧ v ≠ 0) ∧
        ((name = "y_true" ∧ ([2] : List ℤ).get? i = some v) ∨
         (name = "y_pred" ∧ ([1] : List ℤ).get? i = some v)) :=
  (confusion_counts_strict_label_domain [2] [1] 1 0 (by decide)).1
    (Or.inl ⟨2, by decide, by decide⟩)

/-- Claim C6: `confusion_counts` fails with a LengthMismatch error exactly
when the two integer sequences differ in length, and `analyze_threshold`
propagates that failure unchanged when `scores` and `y_true` differ in length
(the predictions have the length of `scores`). -/
theorem confusion_counts_length_mismatch (yt yp : List ℤ) (scores : List ℚ) (th : ℚ)
    (pos neg : ℤ) (strict : Bool) :
    ((∃ a b, confusion_counts (intsAsPy yt) (intsAsPy yp) pos neg strict =
        .error (.lengthMismatch a b)) ↔ yt.length ≠ yp.length) ∧
    (scores.length ≠ yt.length →
      analyze_threshold scores (intsAsPy yt) th pos neg strict =
        .error (.lengthMismatch yt.length scores.length)) := by
  constructor
  · rw [confusion_counts_int]
    by_cases hlen : yt.length ≠ yp.length
    · rw [if_pos hlen]
      exact ⟨fun _ => hlen, fun _ => ⟨yt.length, yp.length, rfl⟩⟩
    · rw [if_neg hlen]
      constructor
      · rintro ⟨a, b, hab⟩
        exact absurd hab (countLoop_no_length_error pos neg strict _ 0 _ a b)
      · intro hc
        exact absurd hc hlen
  · intro hne
    have hl : (apply_threshold scores th pos neg).length = scores.length :=
      List.length_map _ _
    have hcc : confusion_counts (intsAsPy yt)
        (intsAsPy (apply_threshold scores th pos neg)) pos neg strict =
        .error (.lengthMismatch yt.length scores.length) := by
      rw [confusion_counts_int, if_pos (by rw [hl]; omega), hl]
    simp only [analyze_threshold]
    rw [hcc]

/-- Witness for C6: scores of length 3 against y_true of length 2 make
`analyze_threshold` fail with LengthMismatch (2, 3). -/
theorem confusion_counts_length_mismatch_witness :
    analyze_threshold [(2 : ℚ)/10, 7/10, 4/10] (intsAsPy [0, 1]) (5/10) 1 0 true =
      .error (.lengthMismatch 2 3) :=
  (confusion_counts_length_mismatch [0, 1] [] [(2 : ℚ)/10, 7/10, 4/10] (5/10) 1 0 true).2
    (by decide)

/-- Claim C7: with `strict_labels` false, `confusion_counts` never raises a
label-domain error and classifies every element solely by equality with
`positive_label` (so `negative_label`'s value is irrelevant); in particular
y_true=[2,1], y_pred=[1,2] with default labels yields (tp=0,fp=1,tn=0,fn=1). -/
theorem confusion_counts_nonstrict (yt yp : List ℤ) (pos neg neg2 : ℤ)
    (hlen : yt.length = yp.length) :
    confusion_counts (intsAsPy yt) (intsAsPy yp) pos neg false =
      confusion_counts (intsAsPy yt) (intsAsPy yp) pos neg2 false ∧
    confusion_counts (intsAsPy yt) (intsAsPy yp) pos neg false =
      .ok ⟨(yt.zip yp).countP (fun q => decide (q.1 = pos) && decide (q.2 = pos)),
           (yt.zip yp).countP (fun q => !decide (q.1 = pos) && decide (q.2 = pos)),
           (yt.zip yp).countP (fun q => !decide (q.1 = pos) && !decide (q.2 = pos)),
           (yt.zip yp).countP (fun q => decide (q.1 = pos) && !decide (q.2 = pos))⟩ ∧
    (∀ (za zb : List ℤ) (name : String) (i : ℕ) (v : ℤ),
      confusion_counts (intsAsPy za) (intsAsPy zb) pos neg false ≠
        .error (.labelDomain name i v)) ∧
    confusion_counts (intsAsPy [2, 1]) (intsAsPy [1, 2]) 1 0 false = .ok ⟨0, 1, 0, 1⟩ := by
  have hchar : ∀ (za zb : List ℤ) (ng : ℤ), za.length = zb.length →
      confusion_counts (intsAsPy za) (intsAsPy zb) pos ng false =
        .ok ⟨(za.zip zb).countP (fun q => decide (q.1 = pos) && decide (q.2 = pos)),
             (za.zip zb).countP (fun q => !decide (q.1 = pos) && decide (q.2 = pos)),
             (za.zip zb).countP (fun q => !decide (q.1 = pos) && !decide (q.2 = pos)),
             (za.zip zb).countP (fun q => decide (q.1 = pos) && !decide (q.2 = pos))⟩ := by
    intro za zb ng hl
    rw [confusion_counts_int, if_neg (by omega), countLoop_false_ok]
    simp
  refine ⟨?_, ?_, ?_, rfl⟩
  · rw [hchar yt yp neg hlen, hchar yt yp neg2 hlen]
  · exact hchar yt yp neg hlen
  · intro za zb name i v hcontra
    by_cases hl : za.length = zb.length
    · rw [hchar za zb neg hl] at hcontra
      cases hcontra
    · rw [confusion_counts_int, if_pos (by omega)] at hcontra
      cases hcontra

/-- Witness for C7: spec scenario 6 with an arbitrary second negative label. -/
theorem confusion_counts_nonstrict_witness :
    confusion_counts (intsAsPy [2, 1]) (intsAsPy [1, 2]) 1 0 false = .ok ⟨0, 1, 0, 1⟩ :=
  (confusion_counts_nonstrict [2, 1] [1, 2] 1 0 5 (by decide)).2.2.2

theorem analyze_threshold_ok_fields (scores : List ℚ) (y_true : List PyVal) (th : ℚ)
    (pos neg : ℤ) (strict : Bool) (r : ThresholdAnalysisResult)
    (h : analyze_threshold scores y_true th pos neg strict = .ok r) :
    r.threshold = th := by
  simp only [analyze_threshold] at h
  cases hc : confusion_counts y_true (intsAsPy (apply_threshold scores th pos neg))
      pos neg strict with
  | error e =>
    rw [hc] at h
    cases h
  | ok counts =>
    rw [hc] at h
    cases hb : binary_metrics y_true (intsAsPy (apply_threshold scores th pos neg))
        pos neg strict with
    | error e =>
      rw [hb] at h
      cases h
    | ok m =>
      rw [hb] at h
      have h3 : Except.ok ({
          threshold := th,
          y_pred := apply_threshold scores th pos neg,
          counts := counts,
          metrics := m } : ThresholdAnalysisResult) = .ok r := h
      cases h3
      rfl

/-- Claim C8: `sweep_thresholds` returns exactly one result per threshold, in
the order supplied, each equal to `analyze_threshold` on the same inputs at
that threshold; the threshold fields equal the input thresholds element-wise
and the empty threshold list yields the empty result list. -/
theorem sweep_thresholds_spec (scores : List ℚ) (y_true : List PyVal)
    (pos neg : ℤ) (strict : Bool) :
    sweep_thresholds scores y_true [] pos neg strict = .ok [] ∧
    (∀ (ths : List ℚ) (rs : List ThresholdAnalysisResult),
      sweep_thresholds scores y_true ths pos neg strict = .ok rs →
        rs.length = ths.length ∧
        rs.map (fun r => r.threshold) = ths ∧
        (∀ j, j < ths.length → ∃ th r, ths.get? j = some th ∧ rs.get? j = some r ∧
          analyze_threshold scores y_true th pos neg strict = .ok r)) := by
  refine ⟨rfl, ?_⟩
  intro ths
  induction ths with
  | nil =>
    intro rs h
    have h0 : Except.ok ([] : List ThresholdAnalysisResult) = .ok rs := h
    cases h0
    exact ⟨rfl, rfl, fun j hj => absurd hj (by simp)⟩
  | cons th rest ih =>
    intro rs h
    unfold sweep_thresholds at h
    cases ha : analyze_threshold scores y_true th pos neg strict with
    | error e =>
      rw [ha] at h
      cases h
    | ok r =>
      rw [ha] at h
      have h2 : (match sweep_thresholds scores y_true rest pos neg strict with
        | .error e => (.error e : Except NdtError (List ThresholdAnalysisResult))
        | .ok rs2 => .ok (r :: rs2)) = .ok rs := h
      cases hs : sweep_thresholds scores y_true rest pos neg strict with
      | error e =>
        rw [hs] at h2
        cases h2
      | ok rs2 =>
        rw [hs] at h2
        have h3 : Except.ok (r :: rs2) = .ok rs := h2
        cases h3
        rcases ih rs2 hs with ⟨hlen, hmap, hidx⟩
        refine ⟨by simp [hlen], ?_, ?_⟩
        · simp only [List.map_cons]
          rw [hmap, analyze_threshold_ok_fields scores y_true th pos neg strict r ha]
        · intro j hj
          cases j with
          | zero => exact ⟨th, r, rfl, rfl, ha⟩
          | succ k =>
            rcases hidx k (by simpa using hj) with ⟨th2, r2, hth2, hr2, ha2⟩
            exact ⟨th2, r2, by simpa using hth2, by simpa using hr2, ha2⟩

/-- Witness for C8: a one-element sweep on empty data carries its threshold
through to the result. -/
theorem sweep_thresholds_spec_witness :
    List.map (fun r => r.threshold)
        [({
            threshold := 0,
            y_pred := [],
            counts := ⟨0, 0, 0, 0⟩,
            metrics := metrics_from_counts ⟨0, 0, 0, 0⟩ } : ThresholdAnalysisResult)] =
      [(0 : ℚ)] :=
  ((sweep_thresholds_spec [] [] 1 0 true).2 [(0 : ℚ)]
      [{
         threshold := 0,
         y_pred := [],
         counts := ⟨0, 0, 0, 0⟩,
         metrics := metrics_from_counts ⟨0, 0, 0, 0⟩ }] rfl).2.1

/-- C9 counterexample: the float `2.0` is representable as an integer, yet
`_to_list_int` rejects it with a TypeKind error at index 0 instead of
coercing it, because the code tests `isinstance(v, int)`. -/
theorem to_list_int_no_coercion :
    int_representable (PyVal.float 2) = true ∧
    _to_list_int [PyVal.float 2] "y_true" = .error (.typeKind "y_true" 0) := by
  constructor
  · decide
  · rfl

/-- Amended C9: `_to_list_int` succeeds exactly when every element is an int
instance (returning those ints unchanged, with no coercion of
integer-representable non-ints such as 2.0), fails with a TypeKind error
naming the sequence and the index of the first non-int element, and
`confusion_counts` and `binary_metrics` propagate such failures unchanged. -/
theorem to_list_int_typekind (vs : List PyVal) (name : String) :
    ((∃ l, _to_list_int vs name = .ok l) ↔ ∀ v ∈ vs, is_int v = true) ∧
    (∀ l, _to_list_int vs name = .ok l → vs = intsAsPy l) ∧
    (∀ i v, vs.get? i = some v → is_int v = false →
      (∀ j w, j < i → vs.get? j = some w → is_int w = true) →
      _to_list_int vs name = .error (.typeKind name i)) ∧
    (∀ e, _to_list_int vs "y_true" = .error e →
      ∀ (yp : List PyVal) (pos neg : ℤ) (strict : Bool),
        confusion_counts vs yp pos neg strict = .error e ∧
        binary_metrics vs yp pos neg strict = .error e) := by
  refine ⟨⟨?_, ?_⟩, ?_, ?_, ?_⟩
  · rintro ⟨l, hl⟩ v hv
    have hshape := toListIntAux_ok_shape name vs 0 l hl
    subst hshape
    rcases List.mem_map.mp hv with ⟨n, _, rfl⟩
    rfl
  · exact fun hall => toListIntAux_ok_of_all name vs 0 hall
  · exact fun l hl => toListIntAux_ok_shape name vs 0 l hl
  · intro i v hget hbad hbefore
    have := toListIntAux_first_bad name vs 0 i v hget hbad hbefore
    simpa using this
  · intro e he yp pos neg strict
    constructor
    · unfold confusion_counts
      rw [he]
    · unfold binary_metrics confusion_counts
      rw [he]

/-- Witness for amended C9: [1, 2.0] fails with TypeKind at index 1. -/
theorem to_list_int_typekind_witness :
    _to_list_int [PyVal.int 1, PyVal.float 2] "y_pred" = .error (.typeKind "y_pred" 1) :=
  (to_list_int_typekind [PyVal.int 1, PyVal.float 2] "y_pred").2.2.1 1 (PyVal.float 2)
    rfl rfl (by
      intro j w hj hw
      have hj0 : j = 0 := by omega
      subst hj0
      cases hw
      rfl)

end NDT
